import Mathlib

/-!
Verification of the sigma-algebra core of `dit/math/sigmaalgebra.py`.

The Python module computes the sigma-algebra generated by a finite collection
`C` of subsets of a finite universal set `X`, and offers two verifiers for a
candidate family `F`: a fast cardinality test and a brute-force definitional
check.  We embed the module shallowly:

* A Python `frozenset` of elements becomes `Finset α`.  A set-of-frozensets
  argument becomes a `List (Finset α)` carrying the (unspecified but fixed)
  iteration order of the Python set; theorems add `Nodup` hypotheses where the
  argument is really a set.  The code itself deduplicates `C` through
  `set([frozenset(c) for c in C])`, which the embedding mirrors with `dedup`.
* Python iterates a frozenset in a fixed but unspecified order.  That order is
  observable inside `sigma_algebra` (it fixes the column order of the
  incidence matrix), so the universal set enters the embedding as a list
  `Xl : List α` of its elements; theorems quantify over the order.
* `numpy` turns an empty list of rows into a flat shape-`(0,)` array, so a
  matrix with zero rows has no columns at all; `columnsOf` reproduces this.
* A raised Python exception — the `KeyError` or `IndexError` that
  `sigma_algebra` can actually hit in `word[lookups[i]]` — is modelled by
  `Option`: `none` is an uncaught exception, `some` a normal return.
-/

set_option maxRecDepth 8000
set_option linter.unusedSectionVars false

variable {α : Type} [DecidableEq α]

/-- Embeds the matrix part of `sets2matrix(C, X)`: one row per distinct member
of `C` (the source first forms `set([frozenset(c) for c in C])`), each row
listing membership of the elements of `X` in that member, in the iteration
order `Xl` of `X`.  The Python function also returns `X`; the embedding keeps
`Xl` explicit instead.  Note the source performs no check that members of `C`
are contained in `X`: an element outside `X` simply contributes no column. -/
def sets2matrix (C : List (Finset α)) (Xl : List α) : List (List Bool) :=
  C.dedup.map (fun c => Xl.map (fun x => decide (x ∈ c)))

/-- The columns of the incidence matrix, as `unique_columns` iterates them via
`Cmatrix.transpose()`.  When there are no rows, `np.array([])` is a flat empty
array and iterating its transpose yields no columns at all, whatever `n` is;
otherwise there is one column per element of `X`. -/
def columnsOf (rows : List (List Bool)) (n : Nat) : List (List Bool) :=
  match rows with
  | [] => []
  | _ :: _ => (List.range n).map (fun j => rows.map (fun r => r.getD j false))

/-- The distinct columns of the matrix: the key set of the dictionary built by
`unique_columns`, whose size `len(unique_cols)` is the number of groups of
identical columns. -/
def unique_columns (cols : List (List Bool)) : List (List Bool) :=
  cols.dedup

/-- The value `lookups[i]` stored by `sigma_algebra` for column index `i`:
`min(indexes)` over the indexes of the columns identical to column `i`, which
is exactly the first index holding a column equal to column `i`. -/
def repIdx (cols : List (List Bool)) (i : Nat) : Nat :=
  cols.findIdx (fun c => c == cols.getD i [])

/-- Lookup in the `lookups` dictionary; `none` models the `KeyError` raised on
a key the dictionary does not hold (its keys are exactly the column indexes of
the matrix). -/
def lookups (cols : List (List Bool)) (i : Nat) : Option Nat :=
  if i < cols.length then some (repIdx cols i) else none

/-- Modelled from the spec: the enumerator `cmpy.util.words_iter` is an
external collaborator, not part of this repository; per the spec it is "a
binary-word enumerator that, given an alphabet of two symbols and a length L,
produces every one of the `2^L` possible sequences exactly once" (order
immaterial).  We enumerate all lists of `Bool`s of length `L`. -/
def words_iter : Nat → List (List Bool)
  | 0 => [[]]
  | n + 1 =>
    (words_iter n).map (fun w => false :: w) ++ (words_iter n).map (fun w => true :: w)

/-- Embeds the comprehension
`[ x for i,x in enumerate(X) if word[lookups[i]] == 1]` of `sigma_algebra`,
run on the enumerated list of `(index, element)` pairs.  `none` models the
`KeyError` on `lookups[i]` or the `IndexError` on `word[...]`, either of which
aborts the whole call. -/
def buildSubset (cols : List (List Bool)) (word : List Bool) :
    List (Nat × α) → Option (List α)
  | [] => some []
  | p :: rest =>
    match lookups cols p.1 with
    | none => none
    | some rep =>
      match word.get? rep with
      | none => none
      | some b =>
        match buildSubset cols word rest with
        | none => none
        | some tail => some (if b then p.2 :: tail else tail)

/-- The loop `for word in words_iter(...)` of `sigma_algebra`: one subset per
word, any exception aborting the loop. -/
def collectSubsets (cols : List (List Bool)) (Xl : List α) :
    List (List Bool) → Option (List (List α))
  | [] => some []
  | w :: ws =>
    match buildSubset cols w Xl.enum with
    | none => none
    | some s =>
      match collectSubsets cols Xl ws with
      | none => none
      | some rest => some (s :: rest)

/-- Embeds `sigma_algebra(C, X)`: build the incidence matrix, group identical
columns, then for every binary word over the groups collect the subset of `X`
it selects, accumulating the subsets into a set (`sC.add(frozenset(subset))`).
`none` models an uncaught `KeyError`/`IndexError`. -/
def sigma_algebra (C : List (Finset α)) (Xl : List α) : Option (Finset (Finset α)) :=
  (collectSubsets (columnsOf (sets2matrix C Xl) Xl.length) Xl
      (words_iter (unique_columns (columnsOf (sets2matrix C Xl) Xl.length)).length)).map
    (fun subs => (subs.map List.toFinset).toFinset)

/-- The universal set that the verifiers derive when `X is None`:
`X = set(); for cet in F: X.update(cet)`. -/
def derivedX (F : List (Finset α)) : Finset α :=
  F.foldr (fun c acc => c ∪ acc) ∅

/-- Embeds `is_sigma_algebra(F, X)`: encode `F` as a matrix over `X` (iterated
in the order `Xl`) and return `len(F) == 2 ** len(unique_cols)`.  `F` carries
the iteration order of the Python set, so `len(F)` is `F.length`. -/
def is_sigma_algebra (F : List (Finset α)) (Xl : List α) : Bool :=
  F.length == 2 ^ (unique_columns (columnsOf (sets2matrix F Xl) Xl.length)).length

/-- Embeds `is_sigma_algebra__brute(F, X)`: for every member `s1` the
complement `X \ s1` must lie in `F`, and for every pair `s1, s2` the union
`s1 ∪ s2` must lie in `F`; `True` exactly when every check passes. -/
def is_sigma_algebra__brute (F : List (Finset α)) (X : Finset α) : Bool :=
  F.all (fun s1 => decide (X \ s1 ∈ F) && F.all (fun s2 => decide (s1 ∪ s2 ∈ F)))

/-! ### Basic facts about the word enumerator -/

theorem mem_words_iter {k : Nat} {w : List Bool} :
    w ∈ words_iter k ↔ w.length = k := by
  induction k generalizing w with
  | zero =>
    simp only [words_iter, List.mem_singleton, List.length_eq_zero]
  | succ n ih =>
    constructor
    · intro hw
      simp only [words_iter, List.mem_append, List.mem_map] at hw
      rcases hw with ⟨v, hv, rfl⟩ | ⟨v, hv, rfl⟩ <;>
        simp [ih.mp hv]
    · intro hw
      match w with
      | [] => simp at hw
      | b :: v =>
        simp only [List.length_cons, Nat.succ.injEq] at hw
        simp only [words_iter, List.mem_append, List.mem_map]
        cases b
        · exact Or.inl ⟨v, ih.mpr hw, rfl⟩
        · exact Or.inr ⟨v, ih.mpr hw, rfl⟩

/-! ### Facts about `repIdx` (the `lookups` values) -/

theorem repIdx_lt {cols : List (List Bool)} {i : Nat} (h : i < cols.length) :
    repIdx cols i < cols.length := by
  apply List.findIdx_lt_length_of_exists
  refine ⟨cols.getD i [], ?_, ?_⟩
  · rw [List.getD_eq_getElem _ [] h]
    exact List.getElem_mem h
  · simp

theorem repIdx_le {cols : List (List Bool)} {i : Nat} (h : i < cols.length) :
    repIdx cols i ≤ i := by
  by_contra hlt
  push_neg at hlt
  unfold repIdx at hlt
  have hne := List.not_of_lt_findIdx hlt
  rw [← List.getD_eq_getElem _ [] h] at hne
  simp at hne

theorem getD_repIdx {cols : List (List Bool)} {i : Nat} (h : i < cols.length) :
    cols.getD (repIdx cols i) [] = cols.getD i [] := by
  have hlt := repIdx_lt h
  unfold repIdx at hlt ⊢
  have heq := List.findIdx_getElem (w := hlt)
  rw [← List.getD_eq_getElem _ [] hlt] at heq
  simpa using heq

theorem repIdx_congr {cols : List (List Bool)} {i j : Nat}
    (hij : cols.getD i [] = cols.getD j []) : repIdx cols i = repIdx cols j := by
  unfold repIdx
  rw [hij]

theorem getD_mem_of_lt {cols : List (List Bool)} {i : Nat} (h : i < cols.length) :
    cols.getD i [] ∈ cols := by
  rw [List.getD_eq_getElem _ [] h]
  exact List.getElem_mem h

/-! ### The columns of the matrix -/

/-- The membership signature of an element across the (deduplicated) members
of `C`: this is exactly the column that `x` contributes when `x ∈ X`. -/
def colOf (C : List (Finset α)) (x : α) : List Bool :=
  C.dedup.map (fun c => decide (x ∈ c))

theorem sets2matrix_eq_nil {C : List (Finset α)} {Xl : List α} :
    sets2matrix C Xl = [] ↔ C = [] := by
  simp [sets2matrix, List.dedup_eq_nil]

theorem columnsOf_length {rows : List (List Bool)} {n : Nat} (h : rows ≠ []) :
    (columnsOf rows n).length = n := by
  match rows with
  | [] => exact absurd rfl h
  | r :: rs => simp [columnsOf]

theorem columnsOf_of_ne_nil {rows : List (List Bool)} (h : rows ≠ []) (n : Nat) :
    columnsOf rows n = (List.range n).map (fun j => rows.map (fun r => r.getD j false)) := by
  match rows with
  | [] => exact absurd rfl h
  | r :: rs => rfl

theorem columnsOf_getD {C : List (Finset α)} {Xl : List α} (hC : C ≠ [])
    {i : Nat} (hi : i < Xl.length) (hx : α) :
    (columnsOf (sets2matrix C Xl) Xl.length).getD i [] = colOf C (Xl.getD i hx) := by
  have hm : sets2matrix C Xl ≠ [] := by
    simpa [sets2matrix_eq_nil] using hC
  rw [columnsOf_of_ne_nil hm]
  rw [List.getD_eq_getElem _ [] (by simpa using hi)]
  rw [List.getElem_map, List.getElem_range]
  unfold sets2matrix colOf
  rw [List.map_map]
  apply List.map_congr_left
  intro c _
  simp only [Function.comp_apply]
  rw [List.getD_eq_getElem _ false (by simpa using hi), List.getElem_map]
  rw [List.getD_eq_getElem _ hx hi]

theorem colOf_eq_iff {C : List (Finset α)} {x y : α} :
    colOf C x = colOf C y ↔ ∀ c ∈ C, (x ∈ c ↔ y ∈ c) := by
  unfold colOf
  rw [List.map_inj_left]
  constructor
  · intro h c hc
    have := h c (List.mem_dedup.mpr hc)
    exact decide_eq_decide.mp this
  · intro h c hc
    exact decide_eq_decide.mpr (h c (List.mem_dedup.mp hc))

/-! ### Characterization of successful runs of `sigma_algebra` -/

/-- The bit of `word` that the comprehension reads for column index `i`
(out-of-range reads never happen on successful runs, where this function is
used; the default is irrelevant there). -/
def bitAt (cols : List (List Bool)) (word : List Bool) (i : Nat) : Bool :=
  word.getD (repIdx cols i) false

/-- The subset of `X` selected by `word` on a successful run. -/
def selFin (cols : List (List Bool)) (word : List Bool) (Xl : List α) : Finset α :=
  ((Xl.enum.filter (fun p => bitAt cols word p.1)).map Prod.snd).toFinset

theorem buildSubset_eq_some {cols : List (List Bool)} {word : List Bool}
    {l : List (Nat × α)}
    (h : ∀ p ∈ l, p.1 < cols.length ∧ repIdx cols p.1 < word.length) :
    buildSubset cols word l
      = some ((l.filter (fun p => bitAt cols word p.1)).map Prod.snd) := by
  induction l with
  | nil => rfl
  | cons p rest ih =>
    obtain ⟨h1, h2⟩ := h p (List.mem_cons_self p rest)
    have hl : lookups cols p.1 = some (repIdx cols p.1) := by
      unfold lookups
      rw [if_pos h1]
    have hw : word.get? (repIdx cols p.1) = some (bitAt cols word p.1) := by
      unfold bitAt
      rw [List.get?_eq_getElem?, List.getElem?_eq_getElem h2,
        List.getD_eq_getElem _ _ h2]
    have ht := ih (fun q hq => h q (List.mem_cons_of_mem p hq))
    unfold buildSubset
    simp only [hl, hw, ht, List.filter_cons]
    cases hb : bitAt cols word p.1 <;> simp [hb]

theorem buildSubset_some_imp {cols : List (List Bool)} {word : List Bool}
    {l : List (Nat × α)} {s : List α} (h : buildSubset cols word l = some s) :
    ∀ p ∈ l, p.1 < cols.length ∧ repIdx cols p.1 < word.length := by
  induction l generalizing s with
  | nil =>
    intro p hp
    cases hp
  | cons q rest ih =>
    intro p hp
    unfold buildSubset at h
    cases hl : lookups cols q.1 with
    | none =>
      simp only [hl] at h
      exact Option.noConfusion h
    | some rep =>
      simp only [hl] at h
      cases hw : word.get? rep with
      | none =>
        simp only [hw] at h
        exact Option.noConfusion h
      | some b =>
        simp only [hw] at h
        cases hrest : buildSubset cols word rest with
        | none =>
          simp only [hrest] at h
          exact Option.noConfusion h
        | some tail =>
          have hq1 : q.1 < cols.length := by
            by_contra hq1
            unfold lookups at hl
            rw [if_neg hq1] at hl
            cases hl
          have hqrep : rep = repIdx cols q.1 := by
            unfold lookups at hl
            rw [if_pos hq1] at hl
            exact (Option.some.inj hl).symm
          have hq2 : repIdx cols q.1 < word.length := by
            rw [← hqrep]
            rw [List.get?_eq_getElem?] at hw
            exact (List.getElem?_eq_some_iff.mp hw).1
          cases hp with
          | head => exact ⟨hq1, hq2⟩
          | tail _ hp => exact ih hrest p hp

theorem collectSubsets_eq_some_of {cols : List (List Bool)} {Xl : List α}
    {ws : List (List Bool)} (g : List Bool → List α)
    (h : ∀ w ∈ ws, buildSubset cols w Xl.enum = some (g w)) :
    collectSubsets cols Xl ws = some (ws.map g) := by
  induction ws with
  | nil => rfl
  | cons w ws ih =>
    unfold collectSubsets
    simp only [h w (List.mem_cons_self w ws),
      ih (fun v hv => h v (List.mem_cons_of_mem w hv)), List.map_cons]

theorem collectSubsets_some_imp {cols : List (List Bool)} {Xl : List α}
    {ws : List (List Bool)} {subs : List (List α)}
    (h : collectSubsets cols Xl ws = some subs) :
    ∀ w ∈ ws, ∃ s, buildSubset cols w Xl.enum = some s := by
  induction ws generalizing subs with
  | nil =>
    intro w hw
    cases hw
  | cons v ws ih =>
    intro w hw
    unfold collectSubsets at h
    cases hv : buildSubset cols v Xl.enum with
    | none =>
      simp only [hv] at h
      exact Option.noConfusion h
    | some s =>
      simp only [hv] at h
      cases hrest : collectSubsets cols Xl ws with
      | none =>
        simp only [hrest] at h
        exact Option.noConfusion h
      | some rest =>
        cases hw with
        | head => exact ⟨s, hv⟩
        | tail _ hw => exact ih hrest w hw

/-- On every successful run, `sigma_algebra` either took the degenerate
zero-column path (`C` and `X` both empty, family `{∅}`), or every column's
representative index fits inside the word and the family is exactly the set
of word-selected subsets. -/
theorem sigma_algebra_some_cases {C : List (Finset α)} {Xl : List α}
    {F : Finset (Finset α)} (h : sigma_algebra C Xl = some F) :
    (C = [] ∧ Xl = [] ∧ F = {∅}) ∨
      (C ≠ [] ∧
        (∀ i < Xl.length,
          repIdx (columnsOf (sets2matrix C Xl) Xl.length) i
            < (unique_columns (columnsOf (sets2matrix C Xl) Xl.length)).length) ∧
        F = ((words_iter
                (unique_columns (columnsOf (sets2matrix C Xl) Xl.length)).length).map
              (fun w => selFin (columnsOf (sets2matrix C Xl) Xl.length) w Xl)).toFinset) := by
  by_cases hC : C = []
  · subst hC
    left
    cases Xl with
    | nil =>
      have h2 : some ({∅} : Finset (Finset α)) = some F := h
      exact ⟨rfl, rfl, (Option.some.inj h2).symm⟩
    | cons x xs => exact Option.noConfusion h
  · right
    unfold sigma_algebra at h
    rw [Option.map_eq_some'] at h
    obtain ⟨subs, hcol, hF⟩ := h
    have hrows : sets2matrix C Xl ≠ [] := by
      simpa [sets2matrix_eq_nil] using hC
    have hclen : (columnsOf (sets2matrix C Xl) Xl.length).length = Xl.length :=
      columnsOf_length hrows
    have hk0 : List.replicate
        (unique_columns (columnsOf (sets2matrix C Xl) Xl.length)).length false
        ∈ words_iter (unique_columns (columnsOf (sets2matrix C Xl) Xl.length)).length := by
      rw [mem_words_iter, List.length_replicate]
    obtain ⟨s, hs⟩ := collectSubsets_some_imp hcol _ hk0
    have hGood : ∀ p ∈ Xl.enum,
        p.1 < (columnsOf (sets2matrix C Xl) Xl.length).length ∧
          repIdx (columnsOf (sets2matrix C Xl) Xl.length) p.1
            < (unique_columns (columnsOf (sets2matrix C Xl) Xl.length)).length := by
      intro p hp
      have hb := buildSubset_some_imp hs p hp
      rwa [List.length_replicate] at hb
    refine ⟨hC, ?_, ?_⟩
    · intro i hi
      have hpi : ((i : Nat), Xl[i]) ∈ Xl.enum := by
        rw [List.mk_mem_enum_iff_getElem?]
        exact List.getElem?_eq_getElem hi
      exact (hGood _ hpi).2
    · have hbuild : ∀ w ∈ words_iter
          (unique_columns (columnsOf (sets2matrix C Xl) Xl.length)).length,
          buildSubset (columnsOf (sets2matrix C Xl) Xl.length) w Xl.enum
            = some ((Xl.enum.filter
                (fun p => bitAt (columnsOf (sets2matrix C Xl) Xl.length) w p.1)).map
                  Prod.snd) := by
        intro w hw
        apply buildSubset_eq_some
        intro p hp
        refine ⟨(hGood p hp).1, ?_⟩
        rw [mem_words_iter.mp hw]
        exact (hGood p hp).2
      have hcol2 := collectSubsets_eq_some_of
        (fun w => ((Xl.enum.filter
          (fun p => bitAt (columnsOf (sets2matrix C Xl) Xl.length) w p.1)).map
            Prod.snd)) hbuild
      rw [hcol] at hcol2
      have hsubs := Option.some.inj hcol2
      rw [← hF, hsubs, List.map_map]
      rfl

/-! ### Membership in the selected subsets -/

theorem mem_selFin {cols : List (List Bool)} {word : List Bool} {Xl : List α} {x : α} :
    x ∈ selFin cols word Xl
      ↔ ∃ i, ∃ h : i < Xl.length, Xl[i] = x ∧ bitAt cols word i = true := by
  unfold selFin
  rw [List.mem_toFinset, List.mem_map]
  constructor
  · rintro ⟨p, hp, rfl⟩
    rw [List.mem_filter] at hp
    obtain ⟨hpe, hpb⟩ := hp
    rw [List.mem_enum_iff_getElem?] at hpe
    obtain ⟨hlt, hget⟩ := List.getElem?_eq_some_iff.mp hpe
    exact ⟨p.1, hlt, hget, hpb⟩
  · rintro ⟨i, hlt, hx, hb⟩
    refine ⟨(i, x), ?_, rfl⟩
    rw [List.mem_filter]
    refine ⟨?_, hb⟩
    rw [List.mk_mem_enum_iff_getElem?, List.getElem?_eq_getElem hlt, hx]

theorem columnsOf_getElem {C : List (Finset α)} {Xl : List α} (hC : C ≠ [])
    {i : Nat} (hi : i < Xl.length) :
    (columnsOf (sets2matrix C Xl) Xl.length).getD i [] = colOf C Xl[i] := by
  rw [columnsOf_getD hC hi Xl[i], List.getD_eq_getElem _ _ hi]

/-- Two positions holding equal elements of `X` carry identical columns, hence
identical representative indexes. -/
theorem repIdx_congr_of_elem {C : List (Finset α)} {Xl : List α} (hC : C ≠ [])
    {i j : Nat} (hi : i < Xl.length) (hj : j < Xl.length) (hij : Xl[i] = Xl[j]) :
    repIdx (columnsOf (sets2matrix C Xl) Xl.length) i
      = repIdx (columnsOf (sets2matrix C Xl) Xl.length) j := by
  apply repIdx_congr
  rw [columnsOf_getElem hC hi, columnsOf_getElem hC hj, hij]

theorem bitAt_map_not {cols : List (List Bool)} {Xl : List α} {w : List Bool} {k : Nat}
    (hGood : ∀ i < Xl.length, repIdx cols i < k) (hwl : w.length = k)
    {i : Nat} (hi : i < Xl.length) :
    bitAt cols (w.map (fun b => !b)) i = !(bitAt cols w i) := by
  have hrlt : repIdx cols i < w.length := by
    rw [hwl]
    exact hGood i hi
  unfold bitAt
  rw [List.getD_eq_getElem _ _ (by simpa using hrlt), List.getElem_map,
    List.getD_eq_getElem _ _ hrlt]

theorem selFin_compl {cols : List (List Bool)} {Xl : List α} {w : List Bool} {k : Nat}
    (hrep : ∀ i j, ∀ hi : i < Xl.length, ∀ hj : j < Xl.length,
      Xl[i] = Xl[j] → repIdx cols i = repIdx cols j)
    (hGood : ∀ i < Xl.length, repIdx cols i < k) (hwl : w.length = k) :
    Xl.toFinset \ selFin cols w Xl = selFin cols (w.map (fun b => !b)) Xl := by
  ext x
  rw [Finset.mem_sdiff, List.mem_toFinset, mem_selFin, mem_selFin]
  constructor
  · rintro ⟨hxX, hnot⟩
    rw [List.mem_iff_getElem] at hxX
    obtain ⟨i, hi, hxi⟩ := hxX
    refine ⟨i, hi, hxi, ?_⟩
    rw [bitAt_map_not hGood hwl hi]
    cases hbw : bitAt cols w i
    · rfl
    · exact absurd ⟨i, hi, hxi, hbw⟩ hnot
  · rintro ⟨i, hi, hxi, hb⟩
    rw [bitAt_map_not hGood hwl hi] at hb
    have hbw : bitAt cols w i = false := by
      cases hbwv : bitAt cols w i
      · rfl
      · rw [hbwv] at hb
        cases hb
    constructor
    · rw [List.mem_iff_getElem]
      exact ⟨i, hi, hxi⟩
    · rintro ⟨j, hj, hxj, hbj⟩
      have hr : repIdx cols j = repIdx cols i := hrep j i hj hi (by rw [hxj, hxi])
      have hbji : bitAt cols w j = bitAt cols w i := by
        unfold bitAt
        rw [hr]
      rw [hbji, hbw] at hbj
      cases hbj

theorem selFin_union {cols : List (List Bool)} {Xl : List α} {w1 w2 : List Bool} {k : Nat}
    (hGood : ∀ i < Xl.length, repIdx cols i < k)
    (h1 : w1.length = k) (h2 : w2.length = k) :
    selFin cols w1 Xl ∪ selFin cols w2 Xl
      = selFin cols (List.zipWith (fun a b => a || b) w1 w2) Xl := by
  have hzl : (List.zipWith (fun a b : Bool => a || b) w1 w2).length = k := by
    rw [List.length_zipWith, h1, h2]
    exact min_self k
  have hbz : ∀ i, i < Xl.length →
      bitAt cols (List.zipWith (fun a b => a || b) w1 w2) i
        = (bitAt cols w1 i || bitAt cols w2 i) := by
    intro i hi
    have hr1 : repIdx cols i < w1.length := by
      rw [h1]
      exact hGood i hi
    have hr2 : repIdx cols i < w2.length := by
      rw [h2]
      exact hGood i hi
    have hrz : repIdx cols i < (List.zipWith (fun a b : Bool => a || b) w1 w2).length := by
      rw [hzl]
      exact hGood i hi
    unfold bitAt
    rw [List.getD_eq_getElem _ _ hrz, List.getElem_zipWith,
      List.getD_eq_getElem _ _ hr1, List.getD_eq_getElem _ _ hr2]
  ext x
  rw [Finset.mem_union, mem_selFin, mem_selFin, mem_selFin]
  constructor
  · rintro (⟨i, hi, hxi, hb⟩ | ⟨i, hi, hxi, hb⟩)
    · refine ⟨i, hi, hxi, ?_⟩
      rw [hbz i hi, hb, Bool.true_or]
    · refine ⟨i, hi, hxi, ?_⟩
      rw [hbz i hi, hb, Bool.or_true]
  · rintro ⟨i, hi, hxi, hb⟩
    rw [hbz i hi] at hb
    rcases Bool.or_eq_true_iff.mp hb with hbi | hbi
    · exact Or.inl ⟨i, hi, hxi, hbi⟩
    · exact Or.inr ⟨i, hi, hxi, hbi⟩

/-! ### C2 and C3: the generated family, when one is returned -/

/-- C2: whenever `sigma_algebra(C, X)` returns a family (it raises an
exception on some inputs, covered by the other claims), that family is closed
under complement with respect to `X` and under union of any two members. -/
theorem sigma_algebra_closed (C : List (Finset α)) (Xl : List α)
    (F : Finset (Finset α)) (hS : sigma_algebra C Xl = some F) :
    (∀ S ∈ F, Xl.toFinset \ S ∈ F) ∧ ∀ S1 ∈ F, ∀ S2 ∈ F, S1 ∪ S2 ∈ F := by
  rcases sigma_algebra_some_cases hS with ⟨hC, hXl, hF⟩ | ⟨hC, hGood, hF⟩
  · subst hXl
    subst hF
    constructor
    · intro S hSm
      rw [Finset.mem_singleton] at hSm
      subst hSm
      simp
    · intro S1 h1 S2 h2
      rw [Finset.mem_singleton] at h1 h2
      subst h1
      subst h2
      simp
  · have hmem : ∀ S : Finset α, S ∈ F ↔ ∃ w : List Bool,
        w.length = (unique_columns (columnsOf (sets2matrix C Xl) Xl.length)).length ∧
          selFin (columnsOf (sets2matrix C Xl) Xl.length) w Xl = S := by
      intro S
      rw [hF, List.mem_toFinset, List.mem_map]
      constructor
      · rintro ⟨w, hw, rfl⟩
        exact ⟨w, mem_words_iter.mp hw, rfl⟩
      · rintro ⟨w, hwl, rfl⟩
        exact ⟨w, mem_words_iter.mpr hwl, rfl⟩
    have hrep : ∀ i j, ∀ hi : i < Xl.length, ∀ hj : j < Xl.length,
        Xl[i] = Xl[j] →
          repIdx (columnsOf (sets2matrix C Xl) Xl.length) i
            = repIdx (columnsOf (sets2matrix C Xl) Xl.length) j :=
      fun i j hi hj hij => repIdx_congr_of_elem hC hi hj hij
    constructor
    · intro S hSm
      obtain ⟨w, hwl, rfl⟩ := (hmem S).mp hSm
      rw [selFin_compl hrep hGood hwl]
      refine (hmem _).mpr ⟨w.map (fun b => !b), ?_, rfl⟩
      rw [List.length_map, hwl]
    · intro S1 h1 S2 h2
      obtain ⟨w1, hw1, rfl⟩ := (hmem S1).mp h1
      obtain ⟨w2, hw2, rfl⟩ := (hmem S2).mp h2
      rw [selFin_union hGood hw1 hw2]
      refine (hmem _).mpr ⟨List.zipWith (fun a b => a || b) w1 w2, ?_, rfl⟩
      rw [List.length_zipWith, hw1, hw2]
      exact min_self _

/-- C2, witness: the theorem applied to `C = {{1}}`, `X = {1,2}`, where the
code returns the family `{∅, {2}, {1}, {1,2}}`. -/
theorem sigma_algebra_closed_witness :
    sigma_algebra [({1} : Finset Nat)] [1, 2] = some {∅, {2}, {1}, {1, 2}} ∧
      ((∀ S ∈ ({∅, {2}, {1}, {1, 2}} : Finset (Finset Nat)),
          ([1, 2] : List Nat).toFinset \ S ∈ ({∅, {2}, {1}, {1, 2}} : Finset (Finset Nat))) ∧
        ∀ S1 ∈ ({∅, {2}, {1}, {1, 2}} : Finset (Finset Nat)),
          ∀ S2 ∈ ({∅, {2}, {1}, {1, 2}} : Finset (Finset Nat)),
            S1 ∪ S2 ∈ ({∅, {2}, {1}, {1, 2}} : Finset (Finset Nat))) :=
  ⟨rfl, sigma_algebra_closed [({1} : Finset Nat)] [1, 2] {∅, {2}, {1}, {1, 2}}
    (rfl : sigma_algebra [({1} : Finset Nat)] [1, 2] = some {∅, {2}, {1}, {1, 2}})⟩

/-- C3: whenever `sigma_algebra(C, X)` returns a family and the members of `C`
are subsets of `X` (as the data model requires), the family contains `X`, the
empty set, and every member of `C`. -/
theorem sigma_algebra_contains_generators (C : List (Finset α)) (Xl : List α)
    (F : Finset (Finset α)) (hcov : ∀ c ∈ C, c ⊆ Xl.toFinset)
    (hS : sigma_algebra C Xl = some F) :
    Xl.toFinset ∈ F ∧ ∅ ∈ F ∧ ∀ c ∈ C, c ∈ F := by
  rcases sigma_algebra_some_cases hS with ⟨hC, hXl, hF⟩ | ⟨hC, hGood, hF⟩
  · subst hC
    subst hXl
    subst hF
    refine ⟨by simp, by simp, ?_⟩
    intro c hc
    cases hc
  · have hmem : ∀ S : Finset α, S ∈ F ↔ ∃ w : List Bool,
        w.length = (unique_columns (columnsOf (sets2matrix C Xl) Xl.length)).length ∧
          selFin (columnsOf (sets2matrix C Xl) Xl.length) w Xl = S := by
      intro S
      rw [hF, List.mem_toFinset, List.mem_map]
      constructor
      · rintro ⟨w, hw, rfl⟩
        exact ⟨w, mem_words_iter.mp hw, rfl⟩
      · rintro ⟨w, hwl, rfl⟩
        exact ⟨w, mem_words_iter.mpr hwl, rfl⟩
    have hclen : (columnsOf (sets2matrix C Xl) Xl.length).length = Xl.length :=
      columnsOf_length (by simpa [sets2matrix_eq_nil] using hC)
    have hkn : (unique_columns (columnsOf (sets2matrix C Xl) Xl.length)).length
        ≤ Xl.length := by
      have h1 : (unique_columns (columnsOf (sets2matrix C Xl) Xl.length)).length
          ≤ (columnsOf (sets2matrix C Xl) Xl.length).length :=
        List.Sublist.length_le (List.dedup_sublist _)
      rw [hclen] at h1
      exact h1
    refine ⟨?_, ?_, ?_⟩
    · -- X itself: the all-ones word
      refine (hmem _).mpr ⟨List.replicate _ true, List.length_replicate _ _, ?_⟩
      ext x
      rw [mem_selFin, List.mem_toFinset, List.mem_iff_getElem]
      constructor
      · rintro ⟨i, hi, hxi, _⟩
        exact ⟨i, hi, hxi⟩
      · rintro ⟨i, hi, hxi⟩
        refine ⟨i, hi, hxi, ?_⟩
        unfold bitAt
        rw [List.getD_eq_getElem _ _ (by simpa using hGood i hi), List.getElem_replicate]
    · -- the empty set: the all-zeros word
      refine (hmem _).mpr ⟨List.replicate _ false, List.length_replicate _ _, ?_⟩
      ext x
      rw [mem_selFin]
      simp only [Finset.not_mem_empty, iff_false]
      rintro ⟨i, hi, hxi, hb⟩
      unfold bitAt at hb
      rw [List.getD_eq_getElem _ _ (by simpa using hGood i hi),
        List.getElem_replicate] at hb
      cases hb
    · -- each member of C: the word of its own memberships on representatives
      intro c hc
      refine (hmem _).mpr ⟨(Xl.take
        (unique_columns (columnsOf (sets2matrix C Xl) Xl.length)).length).map
          (fun y => decide (y ∈ c)), ?_, ?_⟩
      · rw [List.length_map, List.length_take]
        exact Nat.min_eq_left hkn
      · ext x
        rw [mem_selFin]
        have hbit : ∀ i, ∀ hi : i < Xl.length,
            bitAt (columnsOf (sets2matrix C Xl) Xl.length)
              ((Xl.take (unique_columns (columnsOf (sets2matrix C Xl) Xl.length)).length).map
                (fun y => decide (y ∈ c))) i
              = decide (Xl[i] ∈ c) := by
          intro i hi
          have hrk := hGood i hi
          have hrn : repIdx (columnsOf (sets2matrix C Xl) Xl.length) i < Xl.length :=
            Nat.lt_of_lt_of_le hrk hkn
          have htl : (Xl.take
              (unique_columns (columnsOf (sets2matrix C Xl) Xl.length)).length).length
              = (unique_columns (columnsOf (sets2matrix C Xl) Xl.length)).length := by
            rw [List.length_take]
            exact Nat.min_eq_left hkn
          unfold bitAt
          rw [List.getD_eq_getElem _ _ (by rw [List.length_map, htl]; exact hrk),
            List.getElem_map]
          rw [List.getElem_take]
          -- the element at the representative has the same membership in c
          have hcolrep : (columnsOf (sets2matrix C Xl) Xl.length).getD
              (repIdx (columnsOf (sets2matrix C Xl) Xl.length) i) []
              = (columnsOf (sets2matrix C Xl) Xl.length).getD i [] :=
            getD_repIdx (by rw [hclen]; exact hi)
          rw [columnsOf_getElem hC hrn, columnsOf_getElem hC hi] at hcolrep
          have hiff := colOf_eq_iff.mp hcolrep c hc
          rw [decide_eq_decide]
          exact hiff
        constructor
        · rintro ⟨i, hi, hxi, hb⟩
          rw [hbit i hi] at hb
          rw [decide_eq_true_eq] at hb
          rw [← hxi]
          exact hb
        · intro hxc
          have hxX : x ∈ Xl.toFinset := hcov c hc hxc
          rw [List.mem_toFinset, List.mem_iff_getElem] at hxX
          obtain ⟨i, hi, hxi⟩ := hxX
          refine ⟨i, hi, hxi, ?_⟩
          rw [hbit i hi, decide_eq_true_eq, hxi]
          exact hxc

/-- C3, witness: the theorem applied to `C = {{1}}`, `X = {1,2}`. -/
theorem sigma_algebra_contains_generators_witness :
    ((∀ c ∈ [({1} : Finset Nat)], c ⊆ ([1, 2] : List Nat).toFinset) ∧
        sigma_algebra [({1} : Finset Nat)] [1, 2] = some {∅, {2}, {1}, {1, 2}}) ∧
      (([1, 2] : List Nat).toFinset ∈ ({∅, {2}, {1}, {1, 2}} : Finset (Finset Nat)) ∧
        ∅ ∈ ({∅, {2}, {1}, {1, 2}} : Finset (Finset Nat)) ∧
        ∀ c ∈ [({1} : Finset Nat)], c ∈ ({∅, {2}, {1}, {1, 2}} : Finset (Finset Nat))) :=
  ⟨⟨by decide, rfl⟩,
    sigma_algebra_contains_generators [({1} : Finset Nat)] [1, 2]
      {∅, {2}, {1}, {1, 2}} (by decide)
      (rfl : sigma_algebra [({1} : Finset Nat)] [1, 2] = some {∅, {2}, {1}, {1, 2}})⟩

/-! ### Evaluations witnessing the crash bug of `sigma_algebra`

`lookups[index]` is the raw minimal index of the group of identical columns,
but `word` only has `len(unique_cols)` entries, so whenever the first
occurrences of the distinct columns do not form an initial segment of the
column indexes, `word[lookups[i]]` raises `IndexError`; and when `C` is empty
the 0-row numpy matrix has no columns, so `lookups` is empty and `lookups[0]`
raises `KeyError` as soon as `X` is nonempty. -/

/-- C1: the claimed cardinality law `|sigma_algebra(C, X)| = 2^k` fails: for
`C = {{1,2},{3}}` and `X = {1,2,3}` (iterated `1,2,3`) there are `k = 2`
classes (`{1,2}` and `{3}`), so a family of 4 sets is claimed, but the code
raises `IndexError` (`lookups[2] = 2` overruns the length-2 word) and returns
no family at all. -/
theorem sigma_algebra_index_error :
    sigma_algebra [({1, 2} : Finset Nat), {3}] [1, 2, 3] = none := rfl

/-- C5: for the empty collection and `X = {1,2}` the claimed value is
`{∅, {1,2}}`, but the code raises `KeyError`: the 0-row matrix has no columns,
`lookups` is empty, and the single empty word still triggers `lookups[0]`. -/
theorem sigma_algebra_empty_collection_raises :
    sigma_algebra ([] : List (Finset Nat)) [1, 2] = none := rfl

/-- C7: `is_sigma_algebra(sigma_algebra(C))` cannot return `True` for every
`C`: for `C = {{1,2,3},{1,2}}` (derived `X = {1,2,3}`, iterated `1,2,3`) the
inner `sigma_algebra` raises `IndexError` before the fast verifier runs. -/
theorem sigma_algebra_raises_blocking_fast_verifier :
    sigma_algebra [({1, 2, 3} : Finset Nat), {1, 2}] [1, 2, 3] = none := rfl

/-- C8: `sigma_algebra(sigma_algebra(C)) = sigma_algebra(C)` fails for
`C = {{2,3},{2,3,4}}` (derived `X = {2,3,4}`, iterated `2,3,4`): the inner
call raises `IndexError`, so no family is produced on either side. -/
theorem sigma_algebra_raises_blocking_idempotence :
    sigma_algebra [({2, 3} : Finset Nat), {2, 3, 4}] [2, 3, 4] = none := rfl

/-! ### C4: no domain check in `sets2matrix` -/

/-- C4 counterexample: with `C = {{1,3}}` and the explicit universal set
`X = {1,2}` (which does not cover the element `3`), the claim demands a domain
error, but `sets2matrix` returns the matrix `[[1,0]]` normally and
`sigma_algebra` even returns a normal family. -/
theorem sets2matrix_returns_normally_uncovered_X :
    sets2matrix [({1, 3} : Finset Nat)] [1, 2] = [[true, false]] ∧
      sigma_algebra [({1, 3} : Finset Nat)] [1, 2] = some {∅, {2}, {1}, {1, 2}} :=
  ⟨rfl, rfl⟩

/-- C4 amended: `sets2matrix` performs no covering check at all: for every
collection `C` and every supplied `X`, each member `c` of `C` is encoded
normally by the row of membership tests of `X`'s elements, and that row equals
the row of `c ∩ X` — elements outside `X` are silently ignored rather than
reported through a domain error. -/
theorem sets2matrix_encodes_membership_in_X_only
    (C : List (Finset α)) (Xl : List α) (c : Finset α) (hc : c ∈ C) :
    (Xl.map (fun x => decide (x ∈ c))) ∈ sets2matrix C Xl ∧
      (Xl.map (fun x => decide (x ∈ c)))
        = Xl.map (fun x => decide (x ∈ c ∩ Xl.toFinset)) := by
  constructor
  · exact List.mem_map_of_mem _ (List.mem_dedup.mpr hc)
  · apply List.map_congr_left
    intro x hx
    simp [Finset.mem_inter, List.mem_toFinset.mpr hx]

/-- C4 amended, witness: instantiated at `C = {{1,3}}`, `X = {1,2}`. -/
theorem sets2matrix_encodes_membership_in_X_only_witness :
    ({1, 3} : Finset Nat) ∈ [({1, 3} : Finset Nat)] ∧
      ((([1, 2] : List Nat).map (fun x => decide (x ∈ ({1, 3} : Finset Nat))))
          ∈ sets2matrix [({1, 3} : Finset Nat)] [1, 2] ∧
        (([1, 2] : List Nat).map (fun x => decide (x ∈ ({1, 3} : Finset Nat))))
          = ([1, 2] : List Nat).map
              (fun x => decide (x ∈ ({1, 3} : Finset Nat) ∩ ([1, 2] : List Nat).toFinset))) :=
  ⟨by decide, sets2matrix_encodes_membership_in_X_only _ _ _ (by decide)⟩

/-! ### C6 and C10: the brute-force verifier -/

theorem brute_eq_true_iff (F : List (Finset α)) (X : Finset α) :
    is_sigma_algebra__brute F X = true ↔
      (∀ s1 ∈ F, X \ s1 ∈ F) ∧ ∀ s1 ∈ F, ∀ s2 ∈ F, s1 ∪ s2 ∈ F := by
  simp only [is_sigma_algebra__brute, List.all_eq_true, Bool.and_eq_true,
    decide_eq_true_eq]
  constructor
  · intro h
    exact ⟨fun s1 h1 => (h s1 h1).1, fun s1 h1 s2 h2 => (h s1 h1).2 s2 h2⟩
  · intro h s1 h1
    exact ⟨h.1 s1 h1, fun s2 h2 => h.2 s1 h1 s2 h2⟩

/-- C6: `is_sigma_algebra__brute(F, X)` returns `True` exactly when every
member's complement with respect to `X` lies in `F` and every pairwise union
of members lies in `F`; equivalently it returns `False` exactly when a single
check fails. -/
theorem is_sigma_algebra__brute_iff_closed (F : List (Finset α)) (X : Finset α) :
    is_sigma_algebra__brute F X = true ↔
      (∀ s1 ∈ F, X \ s1 ∈ F) ∧ ∀ s1 ∈ F, ∀ s2 ∈ F, s1 ∪ s2 ∈ F :=
  brute_eq_true_iff F X

/-- C10: on the empty family every check of the brute-force verifier is
vacuous, so it returns `True` for every universal set `X` (supplied, or the
empty derived one), even though the empty family contains neither `X` nor the
empty set. -/
theorem brute_true_on_empty_family :
    ∀ X : Finset Nat, is_sigma_algebra__brute ([] : List (Finset Nat)) X = true :=
  fun _ => rfl

/-! ### The two verifiers on nonempty families

On a nonempty family `F` with `X` derived as the union of its members, the
fast cardinality test and the brute-force closure test agree: `len(F) = 2^k`
holds precisely when `F` is closed under complement and pairwise union.  The
column a member sees for an element is its signature `colOf F`; the argument
runs through the map sending a member to the set of signatures it contains. -/

theorem mem_derivedX {F : List (Finset α)} {x : α} :
    x ∈ derivedX F ↔ ∃ f ∈ F, x ∈ f := by
  induction F with
  | nil => simp [derivedX]
  | cons c F ih =>
    show x ∈ c ∪ derivedX F ↔ _
    rw [Finset.mem_union, ih]
    simp

theorem subset_derivedX {F : List (Finset α)} {f : Finset α} (hf : f ∈ F) :
    f ⊆ derivedX F :=
  fun _ hx => mem_derivedX.mpr ⟨f, hf, hx⟩

theorem cols_toFinset_eq {F : List (Finset α)} {Xl : List α} (hne : F ≠ []) :
    (columnsOf (sets2matrix F Xl) Xl.length).toFinset = Xl.toFinset.image (colOf F) := by
  have hclen : (columnsOf (sets2matrix F Xl) Xl.length).length = Xl.length :=
    columnsOf_length (by simpa [sets2matrix_eq_nil] using hne)
  ext co
  rw [List.mem_toFinset, Finset.mem_image]
  constructor
  · intro hco
    rw [List.mem_iff_getElem] at hco
    obtain ⟨i, hi, hco⟩ := hco
    have hi2 : i < Xl.length := by rwa [hclen] at hi
    refine ⟨Xl[i], ?_, ?_⟩
    · rw [List.mem_toFinset]
      exact List.getElem_mem hi2
    · rw [← columnsOf_getElem hne hi2, List.getD_eq_getElem _ _ hi, hco]
  · rintro ⟨x, hx, rfl⟩
    rw [List.mem_toFinset, List.mem_iff_getElem] at hx
    obtain ⟨i, hi, rfl⟩ := hx
    rw [← columnsOf_getElem hne hi]
    exact getD_mem_of_lt (by rwa [hclen])

theorem k_eq_card_sig {F : List (Finset α)} {Xl : List α} (hne : F ≠ []) :
    (unique_columns (columnsOf (sets2matrix F Xl) Xl.length)).length
      = (Xl.toFinset.image (colOf F)).card := by
  rw [← cols_toFinset_eq hne, List.card_toFinset]
  rfl

theorem colOf_mem_image_iff {F : List (Finset α)} {f : Finset α} (hf : f ∈ F) {x : α} :
    colOf F x ∈ f.image (colOf F) ↔ x ∈ f := by
  rw [Finset.mem_image]
  constructor
  · rintro ⟨y, hy, hcol⟩
    exact (colOf_eq_iff.mp hcol f hf).mp hy
  · intro hx
    exact ⟨x, hx, rfl⟩

theorem mem_iff_col {F : List (Finset α)} {X : Finset α} {f : Finset α}
    (hf : f ∈ F) (hsubf : f ⊆ X) {x : α} :
    x ∈ f ↔ x ∈ X ∧ colOf F x ∈ f.image (colOf F) :=
  ⟨fun hx => ⟨hsubf hx, (colOf_mem_image_iff hf).mpr hx⟩,
    fun hx => (colOf_mem_image_iff hf).mp hx.2⟩

theorem member_eq_filter {F : List (Finset α)} {X : Finset α} {f : Finset α}
    (hf : f ∈ F) (hsubf : f ⊆ X) :
    f = X.filter (fun x => colOf F x ∈ f.image (colOf F)) := by
  ext x
  rw [Finset.mem_filter, ← mem_iff_col hf hsubf]

theorem tau_injOn {F : List (Finset α)} {X : Finset α}
    (hsub : ∀ f ∈ F, f ⊆ X) :
    Set.InjOn (fun f : Finset α => f.image (colOf F)) ↑F.toFinset := by
  intro f hfm g hgm hfg
  have hf : f ∈ F := List.mem_toFinset.mp hfm
  have hg : g ∈ F := List.mem_toFinset.mp hgm
  rw [member_eq_filter hf (hsub f hf), member_eq_filter hg (hsub g hg)]
  simp only at hfg
  rw [hfg]

/-- The member of a closed family that isolates the signature class of `x`:
the intersection, over all members, of the member or its complement according
to whether `x` lies in it. -/
def atomInter (F : List (Finset α)) (X : Finset α) (x : α) : Finset α :=
  F.foldr (fun f acc => (if x ∈ f then f else X \ f) ∩ acc) X

theorem foldr_atom_mem {F : List (Finset α)} {X : Finset α} {x : α}
    (hX : X ∈ F) (hcompl : ∀ f ∈ F, X \ f ∈ F)
    (hint : ∀ s ∈ F, ∀ t ∈ F, s ∩ t ∈ F) :
    ∀ l : List (Finset α), (∀ f ∈ l, f ∈ F) →
      l.foldr (fun f acc => (if x ∈ f then f else X \ f) ∩ acc) X ∈ F := by
  intro l
  induction l with
  | nil =>
    intro _
    exact hX
  | cons f l ih =>
    intro h
    have hf := h f (List.mem_cons_self f l)
    have hl := ih (fun g hg => h g (List.mem_cons_of_mem f hg))
    show (if x ∈ f then f else X \ f) ∩ _ ∈ F
    by_cases hxf : x ∈ f
    · rw [if_pos hxf]
      exact hint f hf _ hl
    · rw [if_neg hxf]
      exact hint _ (hcompl f hf) _ hl

theorem foldr_atom_spec {X : Finset α} {x y : α} :
    ∀ l : List (Finset α),
      (y ∈ l.foldr (fun f acc => (if x ∈ f then f else X \ f) ∩ acc) X
        ↔ y ∈ X ∧ ∀ f ∈ l, (x ∈ f ↔ y ∈ f)) := by
  intro l
  induction l with
  | nil => simp
  | cons f l ih =>
    show y ∈ (if x ∈ f then f else X \ f) ∩ _ ↔ _
    rw [Finset.mem_inter, ih]
    by_cases hxf : x ∈ f
    · rw [if_pos hxf]
      constructor
      · rintro ⟨hyf, hyX, hrest⟩
        refine ⟨hyX, ?_⟩
        intro g hg
        rcases List.mem_cons.mp hg with rfl | hg
        · exact ⟨fun _ => hyf, fun _ => hxf⟩
        · exact hrest g hg
      · rintro ⟨hyX, hall⟩
        refine ⟨(hall f (List.mem_cons_self f l)).mp hxf, hyX, ?_⟩
        exact fun g hg => hall g (List.mem_cons_of_mem f hg)
    · rw [if_neg hxf, Finset.mem_sdiff]
      constructor
      · rintro ⟨⟨hyX, hyf⟩, _, hrest⟩
        refine ⟨hyX, ?_⟩
        intro g hg
        rcases List.mem_cons.mp hg with rfl | hg
        · exact ⟨fun hx1 => absurd hx1 hxf, fun hy1 => absurd hy1 hyf⟩
        · exact hrest g hg
      · rintro ⟨hyX, hall⟩
        refine ⟨⟨hyX, ?_⟩, hyX, fun g hg => hall g (List.mem_cons_of_mem f hg)⟩
        intro hyf
        exact hxf ((hall f (List.mem_cons_self f l)).mpr hyf)

theorem atomInter_eq_filter (F : List (Finset α)) (X : Finset α) (x : α) :
    atomInter F X x = X.filter (fun y => colOf F y = colOf F x) := by
  ext y
  unfold atomInter
  rw [foldr_atom_spec, Finset.mem_filter, colOf_eq_iff]
  constructor
  · rintro ⟨h1, h2⟩
    exact ⟨h1, fun c hc => (h2 c hc).symm⟩
  · rintro ⟨h1, h2⟩
    exact ⟨h1, fun c hc => (h2 c hc).symm⟩

theorem filter_sig_mem {F : List (Finset α)} {Xl : List α} (hne : F ≠ [])
    (hU : Xl.toFinset = derivedX F)
    (hcompl : ∀ s ∈ F, Xl.toFinset \ s ∈ F)
    (hunion : ∀ s ∈ F, ∀ t ∈ F, s ∪ t ∈ F) :
    ∀ S : Finset (List Bool), S ⊆ Xl.toFinset.image (colOf F) →
      Xl.toFinset.filter (fun x => colOf F x ∈ S) ∈ F := by
  have hsub : ∀ f ∈ F, f ⊆ Xl.toFinset := by
    intro f hf
    rw [hU]
    exact subset_derivedX hf
  obtain ⟨f₀, hf₀⟩ := List.exists_mem_of_ne_nil F hne
  have hXF : Xl.toFinset ∈ F := by
    have h1 := hcompl f₀ hf₀
    have h2 := hunion f₀ hf₀ _ h1
    rwa [Finset.union_sdiff_of_subset (hsub f₀ hf₀)] at h2
  have hempty : (∅ : Finset α) ∈ F := by
    have h1 := hcompl _ hXF
    rwa [Finset.sdiff_self] at h1
  have hint : ∀ s ∈ F, ∀ t ∈ F, s ∩ t ∈ F := by
    intro s hs t ht
    have h1 := hcompl s hs
    have h2 := hcompl t ht
    have h3 := hunion _ h1 _ h2
    have h4 := hcompl _ h3
    have h5 : Xl.toFinset \ (Xl.toFinset \ s ∪ Xl.toFinset \ t) = s ∩ t := by
      rw [Finset.sdiff_union_distrib]
      rw [Finset.sdiff_sdiff_eq_self (hsub s hs), Finset.sdiff_sdiff_eq_self (hsub t ht)]
    rwa [h5] at h4
  intro S
  induction S using Finset.induction_on with
  | empty =>
    intro _
    have hf : Xl.toFinset.filter (fun x => colOf F x ∈ (∅ : Finset (List Bool))) = ∅ := by
      simp
    rw [hf]
    exact hempty
  | insert hnin ih =>
    intro hS
    rename_i σ S
    have hσ : σ ∈ Xl.toFinset.image (colOf F) := hS (Finset.mem_insert_self σ S)
    obtain ⟨x₀, hx₀X, hcolx₀⟩ := Finset.mem_image.mp hσ
    have hfilter : Xl.toFinset.filter (fun x => colOf F x ∈ insert σ S)
        = atomInter F Xl.toFinset x₀ ∪ Xl.toFinset.filter (fun x => colOf F x ∈ S) := by
      rw [atomInter_eq_filter, ← Finset.filter_or]
      apply Finset.filter_congr
      intro y _
      rw [Finset.mem_insert, ← hcolx₀]
    rw [hfilter]
    refine hunion _ ?_ _ (ih (fun τ hτ => hS (Finset.mem_insert_of_mem hτ)))
    exact foldr_atom_mem hXF hcompl hint F (fun f hf => hf)

theorem tau_filter {F : List (Finset α)} {Xl : List α}
    {S : Finset (List Bool)} (hS : S ⊆ Xl.toFinset.image (colOf F)) :
    (Xl.toFinset.filter (fun x => colOf F x ∈ S)).image (colOf F) = S := by
  ext σ
  rw [Finset.mem_image]
  constructor
  · rintro ⟨x, hx, rfl⟩
    exact (Finset.mem_filter.mp hx).2
  · intro hσS
    obtain ⟨x₀, hx₀, rfl⟩ := Finset.mem_image.mp (hS hσS)
    exact ⟨x₀, Finset.mem_filter.mpr ⟨hx₀, hσS⟩, rfl⟩

/-- On a nonempty duplicate-free family with `X` the union of its members,
closure under complement and pairwise union forces `len(F) = 2^k`. -/
theorem card_of_closed {F : List (Finset α)} {Xl : List α} (hne : F ≠ [])
    (hnd : F.Nodup) (hU : Xl.toFinset = derivedX F)
    (hcompl : ∀ s ∈ F, Xl.toFinset \ s ∈ F)
    (hunion : ∀ s ∈ F, ∀ t ∈ F, s ∪ t ∈ F) :
    F.length = 2 ^ (Xl.toFinset.image (colOf F)).card := by
  have hsub : ∀ f ∈ F, f ⊆ Xl.toFinset := by
    intro f hf
    rw [hU]
    exact subset_derivedX hf
  have himg : F.toFinset.image (fun f : Finset α => f.image (colOf F))
      = (Xl.toFinset.image (colOf F)).powerset := by
    apply Finset.Subset.antisymm
    · intro T hT
      obtain ⟨f, hfm, rfl⟩ := Finset.mem_image.mp hT
      have hf : f ∈ F := List.mem_toFinset.mp hfm
      rw [Finset.mem_powerset]
      exact Finset.image_subset_image (hsub f hf)
    · intro T hT
      rw [Finset.mem_powerset] at hT
      rw [Finset.mem_image]
      refine ⟨Xl.toFinset.filter (fun x => colOf F x ∈ T), ?_, tau_filter hT⟩
      rw [List.mem_toFinset]
      exact filter_sig_mem hne hU hcompl hunion T hT
  have hcard : F.toFinset.card = 2 ^ (Xl.toFinset.image (colOf F)).card := by
    rw [← Finset.card_image_of_injOn (tau_injOn hsub), himg, Finset.card_powerset]
  rw [← hcard, List.toFinset_card_of_nodup hnd]

/-- Conversely, `len(F) = 2^k` forces closure under complement and pairwise
union: the signature map is then a bijection onto the full powerset of the
signature classes. -/
theorem closed_of_card {F : List (Finset α)} {Xl : List α}
    (hnd : F.Nodup) (hU : Xl.toFinset = derivedX F)
    (hcard : F.length = 2 ^ (Xl.toFinset.image (colOf F)).card) :
    (∀ s ∈ F, Xl.toFinset \ s ∈ F) ∧ ∀ s ∈ F, ∀ t ∈ F, s ∪ t ∈ F := by
  have hsub : ∀ f ∈ F, f ⊆ Xl.toFinset := by
    intro f hf
    rw [hU]
    exact subset_derivedX hf
  have himgsub : F.toFinset.image (fun f : Finset α => f.image (colOf F))
      ⊆ (Xl.toFinset.image (colOf F)).powerset := by
    intro T hT
    obtain ⟨f, hfm, rfl⟩ := Finset.mem_image.mp hT
    have hf : f ∈ F := List.mem_toFinset.mp hfm
    rw [Finset.mem_powerset]
    exact Finset.image_subset_image (hsub f hf)
  have himg : F.toFinset.image (fun f : Finset α => f.image (colOf F))
      = (Xl.toFinset.image (colOf F)).powerset := by
    apply Finset.eq_of_subset_of_card_le himgsub
    rw [Finset.card_powerset, Finset.card_image_of_injOn (tau_injOn hsub),
      List.toFinset_card_of_nodup hnd, ← hcard]
  have hrealize : ∀ T ⊆ Xl.toFinset.image (colOf F),
      ∃ h ∈ F, h.image (colOf F) = T := by
    intro T hT
    have hTm : T ∈ F.toFinset.image (fun f : Finset α => f.image (colOf F)) := by
      rw [himg, Finset.mem_powerset]
      exact hT
    obtain ⟨h, hhm, hτ⟩ := Finset.mem_image.mp hTm
    exact ⟨h, List.mem_toFinset.mp hhm, hτ⟩
  constructor
  · intro s hs
    obtain ⟨h, hhF, hτ⟩ := hrealize
      (Xl.toFinset.image (colOf F) \ s.image (colOf F)) Finset.sdiff_subset
    have heq : Xl.toFinset \ s = h := by
      ext x
      rw [Finset.mem_sdiff, mem_iff_col hhF (hsub h hhF), hτ, Finset.mem_sdiff]
      constructor
      · rintro ⟨hxX, hxs⟩
        refine ⟨hxX, Finset.mem_image_of_mem _ hxX, ?_⟩
        intro hximg
        exact hxs ((colOf_mem_image_iff hs).mp hximg)
      · rintro ⟨hxX, _, hximg⟩
        refine ⟨hxX, ?_⟩
        intro hxs
        exact hximg ((colOf_mem_image_iff hs).mpr hxs)
    rw [heq]
    exact hhF
  · intro s hs t ht
    obtain ⟨h, hhF, hτ⟩ := hrealize (s.image (colOf F) ∪ t.image (colOf F))
      (Finset.union_subset (Finset.image_subset_image (hsub s hs))
        (Finset.image_subset_image (hsub t ht)))
    have heq : s ∪ t = h := by
      ext x
      rw [Finset.mem_union, mem_iff_col hhF (hsub h hhF), hτ, Finset.mem_union]
      constructor
      · rintro (hxs | hxt)
        · exact ⟨hsub s hs hxs, Or.inl ((colOf_mem_image_iff hs).mpr hxs)⟩
        · exact ⟨hsub t ht hxt, Or.inr ((colOf_mem_image_iff ht).mpr hxt)⟩
      · rintro ⟨hxX, hximg | hximg⟩
        · exact Or.inl ((colOf_mem_image_iff hs).mp hximg)
        · exact Or.inr ((colOf_mem_image_iff ht).mp hximg)
    rw [heq]
    exact hhF

/-- C9 counterexample: for the empty family (derived `X = ∅`) the fast
verifier returns `False` (`len(F) = 0` but `2^0 = 1`) while the brute-force
verifier returns `True`, so the claimed agreement for every `F` fails. -/
theorem fast_and_brute_disagree_on_empty_family :
    is_sigma_algebra ([] : List (Finset Nat)) [] = false ∧
      is_sigma_algebra__brute ([] : List (Finset Nat)) (derivedX []) = true :=
  ⟨rfl, rfl⟩

/-- C9 amended: on every nonempty family `F` (a set, hence duplicate-free)
with `X` derived as the union of its members, the fast verifier and the
brute-force verifier agree; only the empty family separates them. -/
theorem fast_eq_brute_on_nonempty_family (F : List (Finset α)) (Xl : List α)
    (hne : F ≠ []) (hnd : F.Nodup) (hU : Xl.toFinset = derivedX F) :
    is_sigma_algebra F Xl = is_sigma_algebra__brute F (derivedX F) := by
  have hfast : is_sigma_algebra F Xl = true ↔
      F.length = 2 ^ (Xl.toFinset.image (colOf F)).card := by
    unfold is_sigma_algebra
    rw [beq_iff_eq, k_eq_card_sig hne]
  have hiff : (is_sigma_algebra F Xl = true)
      ↔ (is_sigma_algebra__brute F (derivedX F) = true) := by
    rw [brute_eq_true_iff, hfast]
    constructor
    · intro h
      have h2 := closed_of_card hnd hU h
      rw [hU] at h2
      exact h2
    · intro h
      rw [← hU] at h
      exact card_of_closed hne hnd hU h.1 h.2
  exact Bool.coe_iff_coe.mp hiff

/-- C9 amended, witness: instantiated at the nonempty family `F = {∅}`,
whose derived universal set is empty. -/
theorem fast_eq_brute_on_nonempty_family_witness :
    (([(∅ : Finset Nat)] ≠ []) ∧ ([(∅ : Finset Nat)]).Nodup ∧
        (([] : List Nat)).toFinset = derivedX [(∅ : Finset Nat)]) ∧
      is_sigma_algebra [(∅ : Finset Nat)] ([] : List Nat)
        = is_sigma_algebra__brute [(∅ : Finset Nat)] (derivedX [(∅ : Finset Nat)]) :=
  ⟨⟨by decide, by decide, by decide⟩,
    fast_eq_brute_on_nonempty_family _ _ (by decide) (by decide) (by decide)⟩
